import Mathlib

/-!
Shallow embedding of the `somehybrid/crypto` repository's ChaCha / Poly1305 /
AEAD core (src/chacha/src/cipher.rs) and the AEGIS-256 hardware block type
(src/src/aeads/aegis256/backends/aesni.rs), together with theorems settling
the specification claims.

Bytes are modelled as `Nat` (Rust `u8` values are < 256), 32-bit words as
`Nat` reduced modulo 2^32 where the machine wraps, and Rust `PyResult` as
`Except PErr`.  A Rust panic (out-of-bounds slice index) is modelled as the
distinguished outcome `PErr.panicked`; fallible slicing returns `Option`.
-/

/-- Outcome of a Rust `PyResult`-returning method: a Python-level error with
its message, or a panic (out-of-bounds slice etc.). -/
inductive PErr where
  | py (msg : String) : PErr
  | panicked : PErr
deriving DecidableEq, Repr

/-- Rust slice indexing `l[a..b]`: panics (`none`) unless `a ≤ b ≤ l.len()`. -/
def rsSlice (l : List Nat) (a b : Nat) : Option (List Nat) :=
  if a ≤ b ∧ b ≤ l.length then some ((l.drop a).take (b - a)) else none

/-- Rust slice indexing `l[a..]`: panics (`none`) unless `a ≤ l.len()`. -/
def rsSliceFrom (l : List Nat) (a : Nat) : Option (List Nat) :=
  if a ≤ l.length then some (l.drop a) else none

/-- Modelled from the spec: the `utils` module is not under `src/`; §2 item 1
describes little-endian word packing.  Packs (up to) four bytes,
least-significant first, into one 32-bit word. -/
def from_le_bytes (l : List Nat) : Nat :=
  l.getD 0 0 + l.getD 1 0 * 256 + l.getD 2 0 * 65536 + l.getD 3 0 * 16777216

/-- Little-endian byte decomposition: `n` bytes of the value `v`. -/
def toLE : Nat → Nat → List Nat
  | 0, _ => []
  | n + 1, v => v % 256 :: toLE n (v / 256)

/-- Little-endian packing of a whole byte list (inverse of `toLE`). -/
def leNum (l : List Nat) : Nat :=
  l.foldr (fun b acc => b + 256 * acc) 0

/-- The 4×4 ChaCha state of 32-bit words, row-major (`x12` is the block
counter word for the main cipher). -/
structure St where
  x0 : Nat
  x1 : Nat
  x2 : Nat
  x3 : Nat
  x4 : Nat
  x5 : Nat
  x6 : Nat
  x7 : Nat
  x8 : Nat
  x9 : Nat
  x10 : Nat
  x11 : Nat
  x12 : Nat
  x13 : Nat
  x14 : Nat
  x15 : Nat
deriving DecidableEq, Repr

/-- 32-bit wrapping addition. -/
def add32 (x y : Nat) : Nat := (x + y) % 4294967296

/-- 32-bit left rotation (operand first reduced to its 32-bit value). -/
def rotl32 (x n : Nat) : Nat :=
  (((x % 4294967296) <<< n) % 4294967296) ||| ((x % 4294967296) >>> (32 - n))

/-- Modelled from the spec (§4.1): the ChaCha quarter-round on four words,
`a += b; d ^= a; d <<<= 16; c += d; b ^= c; b <<<= 12; a += b; d ^= a;
d <<<= 8; c += d; b ^= c; b <<<= 7`, all additions modulo 2^32. -/
def qround (a b c d : Nat) : Nat × Nat × Nat × Nat :=
  let a1 := add32 a b
  let d1 := rotl32 (Nat.xor d a1) 16
  let c1 := add32 c d1
  let b1 := rotl32 (Nat.xor b c1) 12
  let a2 := add32 a1 b1
  let d2 := rotl32 (Nat.xor d1 a2) 8
  let c2 := add32 c1 d2
  let b2 := rotl32 (Nat.xor b1 c2) 7
  (a2, b2, c2, d2)

/-- Modelled from the spec (§4.1): quarter-rounds applied to the four
columns of the state. -/
def columnRound (s : St) : St :=
  let (a0, b0, c0, d0) := qround s.x0 s.x4 s.x8 s.x12
  let (a1, b1, c1, d1) := qround s.x1 s.x5 s.x9 s.x13
  let (a2, b2, c2, d2) := qround s.x2 s.x6 s.x10 s.x14
  let (a3, b3, c3, d3) := qround s.x3 s.x7 s.x11 s.x15
  ⟨a0, a1, a2, a3, b0, b1, b2, b3, c0, c1, c2, c3, d0, d1, d2, d3⟩

/-- Modelled from the spec (§4.1): quarter-rounds applied to the four
cyclically shifted diagonals of the state. -/
def diagonalRound (s : St) : St :=
  let (a0, b0, c0, d0) := qround s.x0 s.x5 s.x10 s.x15
  let (a1, b1, c1, d1) := qround s.x1 s.x6 s.x11 s.x12
  let (a2, b2, c2, d2) := qround s.x2 s.x7 s.x8 s.x13
  let (a3, b3, c3, d3) := qround s.x3 s.x4 s.x9 s.x14
  ⟨a0, a1, a2, a3, b3, b0, b1, b2, c2, c3, c0, c1, d1, d2, d3, d0⟩

/-- One double-round: a column pass followed by a diagonal pass. -/
def doubleRound (s : St) : St := diagonalRound (columnRound s)

/-- `n` double-rounds. -/
def permuteN : Nat → St → St
  | 0, s => s
  | n + 1, s => permuteN n (doubleRound s)

/-- Word-wise addition modulo 2^32 of two states (the add-back step). -/
def addSt (a b : St) : St :=
  ⟨add32 a.x0 b.x0, add32 a.x1 b.x1, add32 a.x2 b.x2, add32 a.x3 b.x3,
   add32 a.x4 b.x4, add32 a.x5 b.x5, add32 a.x6 b.x6, add32 a.x7 b.x7,
   add32 a.x8 b.x8, add32 a.x9 b.x9, add32 a.x10 b.x10, add32 a.x11 b.x11,
   add32 a.x12 b.x12, add32 a.x13 b.x13, add32 a.x14 b.x14, add32 a.x15 b.x15⟩

/-- Serialize the 16 state words to 64 bytes, each word little-endian. -/
def serializeSt (s : St) : List Nat :=
  toLE 4 s.x0 ++ toLE 4 s.x1 ++ toLE 4 s.x2 ++ toLE 4 s.x3 ++
  toLE 4 s.x4 ++ toLE 4 s.x5 ++ toLE 4 s.x6 ++ toLE 4 s.x7 ++
  toLE 4 s.x8 ++ toLE 4 s.x9 ++ toLE 4 s.x10 ++ toLE 4 s.x11 ++
  toLE 4 s.x12 ++ toLE 4 s.x13 ++ toLE 4 s.x14 ++ toLE 4 s.x15

/-- Modelled from the spec (§4.1): one output block — `rounds/2`
double-rounds, then add-back of the input state unless `skip` is set. -/
def chachaBlock (s : St) (rounds : Nat) (skip : Bool) : St :=
  let p := permuteN (rounds / 2) s
  if skip then p else addSt p s

/-- Increment the block-counter word (row 3, word 0), wrapping modulo 2^32. -/
def incrCounterSt (s : St) : St := { s with x12 := (s.x12 + 1) % 4294967296 }

/-- Modelled from the spec: the `backends` module is not under `src/`.
`cipher.rs` calls `backends::rounds(state, rounds, skip)` and receives
`[u8; 128]`; per §4.1/§4.2 the backend batches two consecutive counter
blocks, so the output is the serialization of the block at the given
counter followed by the block at counter+1. -/
def backendRounds (s : St) (rounds : Nat) (skip : Bool) : List Nat :=
  serializeSt (chachaBlock s rounds skip) ++
  serializeSt (chachaBlock (incrCounterSt s) rounds skip)

/-- `ChaCha::keystream` (cipher.rs lines 18–42): builds the state from the
four ASCII constants, the eight key words, the counter, and the three nonce
words, and invokes the backend with add-back enabled.  Slicing panics
(`none`) when `key` or `nonce` is too short. -/
def chachaKeystream (key : List Nat) (rounds : Nat) (nonce : List Nat)
    (counter : Nat) : Option (List Nat) := do
  let k0 ← rsSlice key 0 4
  let k1 ← rsSlice key 4 8
  let k2 ← rsSlice key 8 12
  let k3 ← rsSlice key 12 16
  let k4 ← rsSlice key 16 20
  let k5 ← rsSlice key 20 24
  let k6 ← rsSlice key 24 28
  let k7 ← rsSliceFrom key 28
  let n0 ← rsSlice nonce 0 4
  let n1 ← rsSlice nonce 4 8
  let n2 ← rsSlice nonce 8 12
  pure (backendRounds
    ⟨0x61707865, 0x3320646e, 0x79622d32, 0x6b206574,
     from_le_bytes k0, from_le_bytes k1, from_le_bytes k2, from_le_bytes k3,
     from_le_bytes k4, from_le_bytes k5, from_le_bytes k6, from_le_bytes k7,
     counter, from_le_bytes n0, from_le_bytes n1, from_le_bytes n2⟩
    rounds false)

/-- Byte-wise XOR of a data chunk with a keystream chunk; the Rust loop
`for (key, chunk) in block.iter().zip(keystream)` stops at the shorter list. -/
def zipXor (a b : List Nat) : List Nat :=
  List.zipWith (fun x y => Nat.xor x y) a b

/-- The per-chunk effective block counter: Rust computes
`counter + index as u32`, a wrapping cast followed by wrapping addition. -/
def effCtr (ctr idx : Nat) : Nat :=
  (ctr % 4294967296 + idx % 4294967296) % 4294967296

/-- The chunk loop of `ChaCha::encrypt` (cipher.rs lines 77–83), recursion
made structural on a fuel bound: splits the data into 128-byte chunks and
XORs chunk `idx` with the keystream at counter `counter + idx` (wrapping).
The fuel never runs out when it starts at `data.length`, since every
processed chunk is nonempty. -/
def encryptChunksF (key : List Nat) (rounds : Nat) (nonce : List Nat)
    (ctr : Nat) : Nat → Nat → List Nat → Except PErr (List Nat)
  | 0, _, _ => .ok []
  | fuel + 1, idx, data =>
    if data = [] then .ok []
    else
      match chachaKeystream key rounds nonce (effCtr ctr idx) with
      | none => .error .panicked
      | some ks =>
        match encryptChunksF key rounds nonce ctr fuel (idx + 1)
            (data.drop 128) with
        | .ok rest => .ok (zipXor (data.take 128) ks ++ rest)
        | .error e => .error e

/-- The chunk loop of `ChaCha::encrypt`, at its natural fuel. -/
def encryptLoop (key : List Nat) (rounds : Nat) (nonce : List Nat)
    (ctr : Nat) (idx : Nat) (data : List Nat) : Except PErr (List Nat) :=
  encryptChunksF key rounds nonce ctr data.length idx data

/-- `ChaCha::encrypt` (cipher.rs lines 68–87): rejects a nonce that is not
12 bytes, then XORs the data chunk-wise with the keystream. -/
def chachaEncrypt (key : List Nat) (rounds : Nat) (plaintext nonce : List Nat)
    (ctr : Nat) : Except PErr (List Nat) :=
  if nonce.length ≠ 12 then .error (.py "Nonce must be 12 bytes in length.")
  else encryptLoop key rounds nonce ctr 0 plaintext

/-- Modelled from the spec: the `poly1305` module is not under `src/`;
§4.4 names the Poly1305 one-time authenticator (RFC 8439).  Clamping of the
`r` half of the key. -/
def polyClamp (r : Nat) : Nat := r &&& 0x0ffffffc0ffffffc0ffffffc0fffffff

/-- Modelled from the spec (§4.4): Poly1305 accumulation over 16-byte
chunks of the absorbed stream, modulo 2^130 - 5; recursion made structural
on a fuel bound that never runs out when it starts at `msg.length`. -/
def polyAbsorbF (r : Nat) : Nat → Nat → List Nat → Nat
  | 0, acc, _ => acc
  | fuel + 1, acc, msg =>
    if msg = [] then acc
    else
      polyAbsorbF r fuel
        ((acc + leNum (msg.take 16) + 2 ^ (8 * (msg.take 16).length)) * r %
          (2 ^ 130 - 5))
        (msg.drop 16)

/-- Poly1305 accumulation at its natural fuel. -/
def polyAbsorb (r acc : Nat) (msg : List Nat) : Nat :=
  polyAbsorbF r msg.length acc msg

/-- Modelled from the spec (§4.4): the Poly1305 tag of the absorbed stream
`msg` under the 32-byte one-time key — 16 bytes, little-endian. -/
def poly1305Tag (key : List Nat) (msg : List Nat) : List Nat :=
  let r := polyClamp (leNum (key.take 16))
  let s := leNum ((key.drop 16).take 16)
  toLE 16 ((polyAbsorb r 0 msg + s) % 2 ^ 128)

/-- The 16-byte length trailer: `len(aad)` then `len(ciphertext)`, each as
8 little-endian bytes of a `u64` (cipher.rs lines 136–141 / 172–177). -/
def lenTrailer (aadLen ctLen : Nat) : List Nat :=
  toLE 8 (aadLen % 2 ^ 64) ++ toLE 8 (ctLen % 2 ^ 64)

/-- The byte stream absorbed by Poly1305 in `ChaChaPoly1305::encrypt`
(cipher.rs lines 134–143): AAD, then ciphertext, then the length trailer. -/
def encMacData (aad ct : List Nat) : List Nat :=
  aad ++ ct ++ lenTrailer aad.length ct.length

/-- The byte stream absorbed by Poly1305 in `ChaChaPoly1305::decrypt`
(cipher.rs lines 169–179): ciphertext, then AAD, then the length trailer. -/
def decMacData (aad ct : List Nat) : List Nat :=
  ct ++ aad ++ lenTrailer aad.length ct.length

/-- `ChaChaPoly1305::encrypt` (cipher.rs lines 119–146): constructor checks
on key and rounds, then the one-time key from the keystream block at
counter 0, then stream encryption at the caller's counter, then the tag
over `encMacData`, returned as ciphertext ++ tag. -/
def chachaPolyEncrypt (key : List Nat) (rounds : Nat)
    (plaintext nonce aad : List Nat) (ctr : Nat) : Except PErr (List Nat) :=
  if key.length ≠ 32 then .error (.py "Key must be 32 bytes in length.")
  else if rounds < 1 then .error (.py "Rounds must be at least 1")
  else
    match chachaKeystream key rounds nonce 0 with
    | none => .error .panicked
    | some otk =>
      match chachaEncrypt key rounds plaintext nonce ctr with
      | .error e => .error e
      | .ok ct => .ok (ct ++ poly1305Tag (otk.take 32) (encMacData aad ct))

/-- `ChaChaPoly1305::decrypt` (cipher.rs lines 148–186): length check
(< 17 bytes rejected) before anything else, split into ciphertext and
trailing 16-byte tag, constructor checks, one-time key at counter 0, stream
decryption, then tag verification over `decMacData`; the plaintext is
released only when the tag matches. -/
def chachaPolyDecrypt (key : List Nat) (rounds : Nat)
    (text nonce aad : List Nat) (ctr : Nat) : Except PErr (List Nat) :=
  if text.length < 17 then .error (.py "Invalid ciphertext")
  else
    let ct := text.take (text.length - 16)
    let tag := text.drop (text.length - 16)
    if key.length ≠ 32 then .error (.py "Key must be 32 bytes in length.")
    else if rounds < 1 then .error (.py "Rounds must be at least 1")
    else
      match chachaKeystream key rounds nonce 0 with
      | none => .error .panicked
      | some otk =>
        match chachaEncrypt key rounds ct nonce ctr with
        | .error e => .error e
        | .ok pt =>
          if poly1305Tag (otk.take 32) (decMacData aad ct) = tag then .ok pt
          else .error (.py "Invalid MAC")

/-- `hchacha` (cipher.rs lines 189–215): state from constants, key words,
and the four nonce words (no counter), permutation with add-back disabled,
returning bytes 0..16 and 48..64 of the backend output. -/
def hchacha (key nonce : List Nat) (rounds : Nat) : Option (List Nat) := do
  let k0 ← rsSlice key 0 4
  let k1 ← rsSlice key 4 8
  let k2 ← rsSlice key 8 12
  let k3 ← rsSlice key 12 16
  let k4 ← rsSlice key 16 20
  let k5 ← rsSlice key 20 24
  let k6 ← rsSlice key 24 28
  let k7 ← rsSliceFrom key 28
  let n0 ← rsSlice nonce 0 4
  let n1 ← rsSlice nonce 4 8
  let n2 ← rsSlice nonce 8 12
  let n3 ← rsSliceFrom nonce 12
  let data := backendRounds
    ⟨0x61707865, 0x3320646e, 0x79622d32, 0x6b206574,
     from_le_bytes k0, from_le_bytes k1, from_le_bytes k2, from_le_bytes k3,
     from_le_bytes k4, from_le_bytes k5, from_le_bytes k6, from_le_bytes k7,
     from_le_bytes n0, from_le_bytes n1, from_le_bytes n2, from_le_bytes n3⟩
    rounds true
  pure (data.take 16 ++ (data.drop 48).take 16)

/-- The HChaCha state exactly as `hchacha` builds it (cipher.rs lines
190–210): the four ASCII constants, the eight key words, and the four nonce
words — no counter word.  Used to state what `hchacha` returns. -/
def hchachaState (key nonce : List Nat) : St :=
  ⟨0x61707865, 0x3320646e, 0x79622d32, 0x6b206574,
   from_le_bytes (key.take 4), from_le_bytes ((key.drop 4).take 4),
   from_le_bytes ((key.drop 8).take 4), from_le_bytes ((key.drop 12).take 4),
   from_le_bytes ((key.drop 16).take 4), from_le_bytes ((key.drop 20).take 4),
   from_le_bytes ((key.drop 24).take 4), from_le_bytes (key.drop 28),
   from_le_bytes (nonce.take 4), from_le_bytes ((nonce.drop 4).take 4),
   from_le_bytes ((nonce.drop 8).take 4), from_le_bytes (nonce.drop 12)⟩

/-- `XChaChaPoly1305::key` (cipher.rs lines 246–253): the derived 12-byte
ChaCha nonce (4 zero bytes ++ nonce[16..24]) and the HChaCha20 subkey from
the first 16 nonce bytes; slicing panics for nonces shorter than 24 bytes. -/
def xchachaKeyFn (key : List Nat) (rounds : Nat) (nonce : List Nat) :
    Option (List Nat × List Nat) := do
  let suffix ← rsSlice nonce 16 24
  let nprefix ← rsSlice nonce 0 16
  let subkey ← hchacha key nprefix rounds
  pure (subkey, [0, 0, 0, 0] ++ suffix)

/-- `XChaChaPoly1305::encrypt` (cipher.rs lines 255–269): derive subkey and
12-byte nonce, then delegate to the ChaCha20-Poly1305 combiner. -/
def xchachaEncrypt (key : List Nat) (rounds : Nat)
    (plaintext nonce aad : List Nat) (ctr : Nat) : Except PErr (List Nat) :=
  match xchachaKeyFn key rounds nonce with
  | none => .error .panicked
  | some (subkey, cn) => chachaPolyEncrypt subkey rounds plaintext cn aad ctr

/-- `XChaChaPoly1305::decrypt` (cipher.rs lines 271–283): derive subkey and
12-byte nonce, then delegate to the ChaCha20-Poly1305 combiner. -/
def xchachaDecrypt (key : List Nat) (rounds : Nat)
    (text nonce aad : List Nat) (ctr : Nat) : Except PErr (List Nat) :=
  match xchachaKeyFn key rounds nonce with
  | none => .error .panicked
  | some (subkey, cn) => chachaPolyDecrypt subkey rounds text cn aad ctr

/-- The XChaCha20-Poly1305 encryption exactly as the spec words it (§4.6):
derive `subkey = HChaCha20(key, prefix16, rounds)`, build the 12-byte nonce
as 4 zero bytes followed by the 8-byte suffix, delegate to the
ChaCha20-Poly1305 combiner.  Stated for comparison with `xchachaEncrypt`,
which is translated from the source. -/
def xchachaEncryptSpec (key : List Nat) (rounds : Nat)
    (plaintext nonce aad : List Nat) (ctr : Nat) : Except PErr (List Nat) :=
  match hchacha key (nonce.take 16) rounds with
  | none => .error .panicked
  | some subkey =>
    chachaPolyEncrypt subkey rounds plaintext
      ([0, 0, 0, 0] ++ (nonce.drop 16).take 8) aad ctr

/-- The XChaCha20-Poly1305 decryption exactly as the spec words it (§4.6),
for comparison with `xchachaDecrypt`. -/
def xchachaDecryptSpec (key : List Nat) (rounds : Nat)
    (text nonce aad : List Nat) (ctr : Nat) : Except PErr (List Nat) :=
  match hchacha key (nonce.take 16) rounds with
  | none => .error .panicked
  | some subkey =>
    chachaPolyDecrypt subkey rounds text
      ([0, 0, 0, 0] ++ (nonce.drop 16).take 8) aad ctr

/-- The AEGIS-256 hardware block (aesni.rs lines 3–4): a 128-bit value
(`__m128i`), byte 0 least significant. -/
structure Block where
  val : Nat
deriving DecidableEq, Repr

/-- `Block::load` (aesni.rs lines 8–10): `_mm_loadu_si128` reads exactly 16
bytes, little-endian byte order. -/
def Block.load (items : List Nat) : Block := ⟨leNum (items.take 16)⟩

/-- `Block::store` (aesni.rs lines 13–17): `_mm_storeu_si128` writes the 16
bytes of the value, little-endian byte order. -/
def Block.store (b : Block) : List Nat := toLE 16 b.val

/-- `Block::xor` (aesni.rs lines 20–22): `_mm_xor_si128`, bitwise XOR. -/
def Block.xor (a b : Block) : Block := ⟨a.val ^^^ b.val⟩

/-- `Block::and` (aesni.rs lines 30–32): `_mm_and_si128`, bitwise AND. -/
def Block.and (a b : Block) : Block := ⟨a.val &&& b.val⟩

deriving instance DecidableEq for Except

set_option maxRecDepth 8000

@[simp] theorem toLE_length (n v : Nat) : (toLE n v).length = n := by
  induction n generalizing v with
  | zero => rfl
  | succ n ih => simp [toLE, ih]

theorem serializeSt_length (s : St) : (serializeSt s).length = 64 := by
  simp [serializeSt]

theorem backendRounds_length (s : St) (r : Nat) (skip : Bool) :
    (backendRounds s r skip).length = 128 := by
  simp [backendRounds, serializeSt_length]

/-- Sanity check of the spec-modelled permutation backend against the
published reference vector (spec §8): all-zero key, all-zero 12-byte nonce,
counter 0 gives a keystream starting `76 b8 e0 ad`. -/
theorem chacha_rfc8439_vector :
    ((chachaKeystream (List.replicate 32 0) 20 (List.replicate 12 0) 0).getD
        []).take 4 = [0x76, 0xb8, 0xe0, 0xad] := by decide

/-- C1: the round-trip property `decrypt(encrypt(plaintext)) == plaintext`
fails on the code: with a one-byte AAD and a one-byte plaintext, decrypt
recomputes the tag over a differently ordered stream and reports
`Invalid MAC` instead of returning the plaintext. -/
theorem roundTrip_fails_with_aad :
    (chachaPolyEncrypt (List.replicate 32 0) 20 [2] (List.replicate 12 0)
          [3] 1).bind
        (fun c =>
          chachaPolyDecrypt (List.replicate 32 0) 20 c (List.replicate 12 0)
            [3] 1) =
      .error (.py "Invalid MAC") := by decide

/-- C2: the Poly1305 stream absorbed by decrypt (ciphertext, then AAD, then
trailer) is not the stream absorbed by encrypt (AAD, then ciphertext, then
trailer), and the resulting tags differ, already for aad = [3], ct = [5]. -/
theorem decrypt_absorbs_different_stream :
    decMacData [3] [5] ≠ encMacData [3] [5] ∧
      poly1305Tag (List.range 32) (decMacData [3] [5]) ≠
        poly1305Tag (List.range 32) (encMacData [3] [5]) := by decide

/-- C4: invalid nonce lengths are not reported as `InvalidNonceLength`
errors: an 11-byte nonce makes `ChaChaPoly1305::encrypt`/`decrypt` panic
(out-of-bounds slice in the keystream computed before any check), a 23-byte
nonce makes both `XChaChaPoly1305` operations panic, and a 25-byte nonce is
silently accepted by `XChaChaPoly1305::encrypt` (no length check exists). -/
theorem nonce_length_errors_are_panics :
    chachaPolyEncrypt (List.replicate 32 0) 20 [] (List.replicate 11 0) [] 1 =
        .error .panicked ∧
      chachaPolyDecrypt (List.replicate 32 0) 20 (List.replicate 17 0)
          (List.replicate 11 0) [] 1 =
        .error .panicked ∧
      xchachaEncrypt (List.replicate 32 0) 20 [] (List.replicate 23 0) [] 1 =
        .error .panicked ∧
      xchachaDecrypt (List.replicate 32 0) 20 (List.replicate 17 0)
          (List.replicate 23 0) [] 1 =
        .error .panicked ∧
      (xchachaEncrypt (List.replicate 32 0) 20 [] (List.replicate 25 0) []
            1).map
          List.length =
        .ok 16 := by
  refine ⟨by decide, by decide, by decide, by decide, by decide⟩

/-- C6: encrypting the empty plaintext yields exactly 16 bytes (the tag),
but decrypting that output does not return the empty plaintext: the decrypt
length check `< 17` rejects the 16-byte input with `Invalid ciphertext`. -/
theorem empty_plaintext_roundTrip_fails :
    (chachaPolyEncrypt (List.replicate 32 0) 20 [] (List.replicate 12 0) []
          1).map
        List.length =
      .ok 16 ∧
      (chachaPolyEncrypt (List.replicate 32 0) 20 [] (List.replicate 12 0) []
            1).bind
          (fun c =>
            chachaPolyDecrypt (List.replicate 32 0) 20 c
              (List.replicate 12 0) [] 1) =
        .error (.py "Invalid ciphertext") := by
  refine ⟨by decide, by decide⟩

theorem chachaKeystream_some (key nonce : List Nat) (r c : Nat)
    (h32 : key.length = 32) (h12 : nonce.length = 12) :
    ∃ ks, chachaKeystream key r nonce c = some ks ∧ ks.length = 128 := by
  unfold chachaKeystream
  simp [rsSlice, rsSliceFrom, h32, h12, backendRounds_length]

theorem zipXor_length (a b : List Nat) :
    (zipXor a b).length = min a.length b.length := by
  simp [zipXor]

theorem zipXor_zipXor (a k : List Nat) (h : a.length ≤ k.length) :
    zipXor (zipXor a k) k = a := by
  induction a generalizing k with
  | nil => simp [zipXor]
  | cons x t ih =>
    cases k with
    | nil => simp at h
    | cons y u =>
      simp only [zipXor, List.zipWith_cons_cons]
      have ht := ih u (by simpa using h)
      simp only [zipXor] at ht
      simp [ht]
      exact Nat.xor_cancel_right y x

theorem encryptChunksF_nil (key nonce : List Nat) (r ctr fuel idx : Nat) :
    encryptChunksF key r nonce ctr fuel idx [] = .ok [] := by
  cases fuel <;> simp [encryptChunksF]

theorem encryptChunksF_inv (key nonce : List Nat) (r ctr : Nat)
    (h32 : key.length = 32) (h12 : nonce.length = 12) :
    ∀ fuel data idx, data.length ≤ fuel →
      ∃ y, encryptChunksF key r nonce ctr fuel idx data = .ok y ∧
        y.length = data.length ∧
        ∀ fuel2, data.length ≤ fuel2 →
          encryptChunksF key r nonce ctr fuel2 idx y = .ok data := by
  intro fuel
  induction fuel with
  | zero =>
    intro data idx hle
    have hd : data = [] := List.eq_nil_of_length_eq_zero (Nat.le_zero.mp hle)
    subst hd
    exact ⟨[], encryptChunksF_nil .., by simp,
      fun fuel2 _ => encryptChunksF_nil ..⟩
  | succ fuel ih =>
    intro data idx hle
    by_cases hd : data = []
    · subst hd
      exact ⟨[], encryptChunksF_nil .., by simp,
        fun fuel2 _ => encryptChunksF_nil ..⟩
    · have hL : 0 < data.length := List.length_pos.mpr hd
      obtain ⟨ks, hks, hkslen⟩ :=
        chachaKeystream_some key nonce r (effCtr ctr idx) h32 h12
      obtain ⟨rest, hrest, hrlen, hrinv⟩ :=
        ih (data.drop 128) (idx + 1) (by simp [List.length_drop]; omega)
      have hAlen : (zipXor (data.take 128) ks).length = min 128 data.length := by
        simp [zipXor_length, List.length_take, hkslen]
      refine ⟨zipXor (data.take 128) ks ++ rest, ?_, ?_, ?_⟩
      · simp [encryptChunksF, hd, hks, hrest]
      · simp [List.length_append, hAlen, hrlen, List.length_drop]
        omega
      · intro fuel2 hf2
        have hylen : (zipXor (data.take 128) ks ++ rest).length = data.length := by
          simp [List.length_append, hAlen, hrlen, List.length_drop]; omega
        have hyne : zipXor (data.take 128) ks ++ rest ≠ [] := by
          intro hnil
          rw [hnil] at hylen
          simp at hylen
          omega
        obtain ⟨fuel3, rfl⟩ : ∃ f3, fuel2 = f3 + 1 := by
          cases fuel2 with
          | zero => omega
          | succ f3 => exact ⟨f3, rfl⟩
        have htake : (zipXor (data.take 128) ks ++ rest).take 128 =
            zipXor (data.take 128) ks := by
          rw [List.take_append_eq_append_take,
            List.take_of_length_le (by omega)]
          rcases Nat.le_total 128 data.length with hc | hc
          · simp [hAlen, Nat.min_eq_left hc]
          · have : rest = [] := by
              apply List.eq_nil_of_length_eq_zero
              simp [hrlen, List.length_drop]; omega
            simp [this]
        have hdrop : (zipXor (data.take 128) ks ++ rest).drop 128 = rest := by
          rw [List.drop_append_eq_append_drop,
            List.drop_eq_nil_of_le (by omega)]
          rcases Nat.le_total 128 data.length with hc | hc
          · simp [hAlen, Nat.min_eq_left hc]
          · have : rest = [] := by
              apply List.eq_nil_of_length_eq_zero
              simp [hrlen, List.length_drop]; omega
            simp [this]
        simp only [encryptChunksF, hyne, if_neg hyne, hks, htake, hdrop]
        rw [hrinv fuel3 (by simp [List.length_drop]; omega)]
        rw [zipXor_zipXor _ _ (by simp [List.length_take, hkslen])]
        simp [List.take_append_drop]

theorem chachaEncrypt_inv (key nonce x : List Nat) (r ctr : Nat)
    (h32 : key.length = 32) (h12 : nonce.length = 12) :
    ∃ y, chachaEncrypt key r x nonce ctr = .ok y ∧ y.length = x.length ∧
      chachaEncrypt key r y nonce ctr = .ok x := by
  obtain ⟨y, h1, h2, h3⟩ :=
    encryptChunksF_inv key nonce r ctr h32 h12 x.length x 0 le_rfl
  refine ⟨y, ?_, h2, ?_⟩
  · simp [chachaEncrypt, h12, encryptLoop, h1]
  · simp only [chachaEncrypt, h12, encryptLoop, ne_eq, not_true_eq_false,
      if_false]
    rw [h2]
    exact h3 x.length le_rfl

/-- C3: `ChaCha::encrypt` is its own inverse — for every 32-byte key,
12-byte nonce, counter, and input, applying it twice with the same
parameters returns the input — and its output always has the length of its
input. -/
theorem chacha_stream_self_inverse (key nonce x : List Nat) (r ctr : Nat)
    (h32 : key.length = 32) (h12 : nonce.length = 12) :
    (chachaEncrypt key r x nonce ctr).bind
        (fun y => chachaEncrypt key r y nonce ctr) = .ok x ∧
      (chachaEncrypt key r x nonce ctr).map List.length = .ok x.length := by
  obtain ⟨y, h1, h2, h3⟩ := chachaEncrypt_inv key nonce x r ctr h32 h12
  rw [h1]
  exact ⟨by simpa [Except.bind] using h3, by simp [Except.map, h2]⟩

/-- Witness for C3 at a concrete key, nonce, counter, and 3-byte input. -/
theorem chacha_stream_self_inverse_witness :
    (chachaEncrypt (List.replicate 32 0) 20 [1, 2, 3] (List.replicate 12 0)
          5).bind
        (fun y =>
          chachaEncrypt (List.replicate 32 0) 20 y (List.replicate 12 0) 5) =
      .ok [1, 2, 3] ∧
      (chachaEncrypt (List.replicate 32 0) 20 [1, 2, 3] (List.replicate 12 0)
            5).map
          List.length =
        .ok 3 :=
  chacha_stream_self_inverse _ _ _ _ _ (by decide) (by decide)

theorem effCtr_eq (ctr i : Nat) : effCtr ctr i = (ctr + i) % 4294967296 := by
  unfold effCtr
  rw [← Nat.add_mod]

theorem encryptChunksF_block (key nonce : List Nat) (r ctr : Nat)
    (h32 : key.length = 32) (h12 : nonce.length = 12) :
    ∀ i fuel data idx, data.length ≤ fuel →
      ∃ y ks, encryptChunksF key r nonce ctr fuel idx data = .ok y ∧
        y.length = data.length ∧
        chachaKeystream key r nonce (effCtr ctr (idx + i)) = some ks ∧
        (y.drop (128 * i)).take 128 =
          zipXor ((data.drop (128 * i)).take 128) ks := by
  intro i
  induction i with
  | zero =>
    intro fuel data idx hle
    obtain ⟨ks, hks, hkslen⟩ :=
      chachaKeystream_some key nonce r (effCtr ctr idx) h32 h12
    by_cases hd : data = []
    · subst hd
      exact ⟨[], ks, encryptChunksF_nil .., by simp, by simpa using hks,
        by simp [zipXor]⟩
    · have hL : 0 < data.length := List.length_pos.mpr hd
      obtain ⟨f, rfl⟩ : ∃ f, fuel = f + 1 := ⟨fuel - 1, by omega⟩
      obtain ⟨rest, hrest, hrlen, _⟩ :=
        encryptChunksF_inv key nonce r ctr h32 h12 f (data.drop 128) (idx + 1)
          (by simp [List.length_drop]; omega)
      have hAlen : (zipXor (data.take 128) ks).length = min 128 data.length := by
        simp [zipXor_length, List.length_take, hkslen]
      refine ⟨zipXor (data.take 128) ks ++ rest, ks,
        by simp [encryptChunksF, hd, hks, hrest], ?_, by simpa using hks, ?_⟩
      · simp [List.length_append, hAlen, hrlen, List.length_drop]
        omega
      · simp only [Nat.mul_zero, List.drop_zero]
        rw [List.take_append_eq_append_take,
          List.take_of_length_le (by omega)]
        rcases Nat.le_total 128 data.length with hc | hc
        · simp [hAlen, Nat.min_eq_left hc]
        · have hrnil : rest = [] := by
            apply List.eq_nil_of_length_eq_zero
            simp [hrlen, List.length_drop]; omega
          simp [hrnil]
  | succ i ih =>
    intro fuel data idx hle
    by_cases hd : data = []
    · subst hd
      obtain ⟨ks, hks, _⟩ :=
        chachaKeystream_some key nonce r (effCtr ctr (idx + (i + 1))) h32 h12
      exact ⟨[], ks, encryptChunksF_nil .., by simp, hks, by simp [zipXor]⟩
    · have hL : 0 < data.length := List.length_pos.mpr hd
      obtain ⟨f, rfl⟩ : ∃ f, fuel = f + 1 := ⟨fuel - 1, by omega⟩
      obtain ⟨ks0, hks0, hks0len⟩ :=
        chachaKeystream_some key nonce r (effCtr ctr idx) h32 h12
      obtain ⟨rest, ks, hrest, hrlen, hks, hblock⟩ :=
        ih f (data.drop 128) (idx + 1) (by simp [List.length_drop]; omega)
      have harith : idx + 1 + i = idx + (i + 1) := by omega
      rw [harith] at hks
      have hAlen : (zipXor (data.take 128) ks0).length = min 128 data.length := by
        simp [zipXor_length, List.length_take, hks0len]
      have hylen : (zipXor (data.take 128) ks0 ++ rest).length = data.length := by
        simp [List.length_append, hAlen, hrlen, List.length_drop]
        omega
      refine ⟨zipXor (data.take 128) ks0 ++ rest, ks,
        by simp [encryptChunksF, hd, hks0, hrest], hylen, hks, ?_⟩
      have hr2 : rest.length = data.length - 128 := by
        rw [hrlen, List.length_drop]
      rcases Nat.le_total data.length 128 with hc | hc
      · have h1 : (zipXor (data.take 128) ks0 ++ rest).drop (128 * (i + 1)) =
            [] := by
          apply List.drop_eq_nil_of_le
          rw [hylen]
          calc data.length ≤ 128 := hc
            _ ≤ 128 * (i + 1) := by omega
        have h2 : data.drop (128 * (i + 1)) = [] := by
          apply List.drop_eq_nil_of_le
          calc data.length ≤ 128 := hc
            _ ≤ 128 * (i + 1) := by omega
        simp [h1, h2, zipXor]
        omega
      · have hA128 : (zipXor (data.take 128) ks0).length = 128 := by
          rw [hAlen]; omega
        have h1 : (zipXor (data.take 128) ks0 ++ rest).drop (128 * (i + 1)) =
            rest.drop (128 * i) := by
          rw [List.drop_append_eq_append_drop,
            List.drop_eq_nil_of_le (by rw [hA128]; omega), hA128]
          have he : 128 * (i + 1) - 128 = 128 * i := by omega
          rw [he]
          simp
        have h2 : data.drop (128 * (i + 1)) = (data.drop 128).drop (128 * i) := by
          rw [List.drop_drop]
          congr 1
          omega
        rw [h1, h2]
        exact hblock

/-- C9: for every 32-byte key and 12-byte nonce, `ChaCha::encrypt` succeeds
on data of any length (no panic), and the keystream applied to the chunk at
index `i` is the one at block counter `(counter + i) mod 2^32` — the
counter wraps deterministically past 2^32 - 1. -/
theorem chacha_counter_wraps (key nonce data : List Nat) (r ctr i : Nat)
    (h32 : key.length = 32) (h12 : nonce.length = 12) :
    ∃ out ks, chachaEncrypt key r data nonce ctr = .ok out ∧
      out.length = data.length ∧
      chachaKeystream key r nonce ((ctr + i) % 4294967296) = some ks ∧
      (out.drop (128 * i)).take 128 =
        zipXor ((data.drop (128 * i)).take 128) ks := by
  obtain ⟨y, ks, h1, hlen, hks, hblock⟩ :=
    encryptChunksF_block key nonce r ctr h32 h12 i data.length data 0 le_rfl
  rw [Nat.zero_add, effCtr_eq] at hks
  exact ⟨y, ks, by simp [chachaEncrypt, h12, encryptLoop, h1], hlen, hks,
    hblock⟩

/-- Witness for C9: a 256-byte plaintext at the maximal counter 2^32 - 1;
the second chunk's counter wraps to 0. -/
theorem chacha_counter_wraps_witness :
    ∃ out ks,
      chachaEncrypt (List.replicate 32 0) 20 (List.replicate 256 7)
          (List.replicate 12 0) 4294967295 =
        .ok out ∧
      out.length = 256 ∧
      chachaKeystream (List.replicate 32 0) 20 (List.replicate 12 0)
          ((4294967295 + 1) % 4294967296) =
        some ks ∧
      (out.drop 128).take 128 =
        zipXor (((List.replicate 256 7).drop 128).take 128) ks := by
  have h := chacha_counter_wraps (List.replicate 32 0) (List.replicate 12 0)
    (List.replicate 256 7) 20 4294967295 1 (by decide) (by decide)
  simpa using h

/-- C5: `ChaChaPoly1305::decrypt` rejects every input shorter than 17 bytes
with the length error — for any key and nonce whatsoever, so before any
keystream computation could panic or run — and, for well-formed parameters
and an input of at least 17 bytes whose trailing 16-byte tag does not match
the recomputed tag, it returns the authentication error (so no plaintext
reaches the caller). -/
theorem chachaPolyDecrypt_errors (key nonce text aad : List Nat) (r ctr : Nat) :
    (text.length < 17 →
      chachaPolyDecrypt key r text nonce aad ctr =
        .error (.py "Invalid ciphertext")) ∧
    (key.length = 32 → 1 ≤ r → nonce.length = 12 → 17 ≤ text.length →
      (chachaKeystream key r nonce 0).map
          (fun otk => poly1305Tag (otk.take 32)
            (decMacData aad (text.take (text.length - 16)))) ≠
        some (text.drop (text.length - 16)) →
      chachaPolyDecrypt key r text nonce aad ctr =
        .error (.py "Invalid MAC")) := by
  constructor
  · intro h
    simp [chachaPolyDecrypt, h]
  · intro h32 hr h12 h17 hmac
    obtain ⟨otk, hotk, _⟩ := chachaKeystream_some key nonce r 0 h32 h12
    obtain ⟨pt, hpt, _, _⟩ := chachaEncrypt_inv key nonce
      (text.take (text.length - 16)) r ctr h32 h12
    rw [hotk] at hmac
    simp only [Option.map_some', ne_eq, Option.some.injEq] at hmac
    simp [chachaPolyDecrypt, Nat.not_lt.mpr h17, h32, Nat.not_lt.mpr hr,
      hotk, hpt, hmac]

/-- Witness for C5: a 5-byte input is rejected as `Invalid ciphertext` even
with an empty (panic-inducing) nonce, and 17 zero bytes fail tag
verification with `Invalid MAC`. -/
theorem chachaPolyDecrypt_errors_witness :
    chachaPolyDecrypt (List.replicate 32 0) 20 (List.replicate 5 0) [] [] 1 =
        .error (.py "Invalid ciphertext") ∧
      chachaPolyDecrypt (List.replicate 32 0) 20 (List.replicate 17 0)
          (List.replicate 12 0) [] 1 =
        .error (.py "Invalid MAC") :=
  ⟨(chachaPolyDecrypt_errors (List.replicate 32 0) [] (List.replicate 5 0)
      [] 20 1).1 (by decide),
    (chachaPolyDecrypt_errors (List.replicate 32 0) (List.replicate 12 0)
      (List.replicate 17 0) [] 20 1).2 (by decide) (by decide) (by decide)
      (by decide) (by decide)⟩

/-- C7: for every 32-byte key and 24-byte nonce, the `XChaChaPoly1305`
operations equal the spec-worded composition: HChaCha20 subkey from the
16-byte nonce prefix, 12-byte nonce of 4 zero bytes and the 8-byte suffix,
then the ChaCha20-Poly1305 combiner with the caller's AAD and counter. -/
theorem xchacha_delegates (key nonce plaintext text aad : List Nat)
    (r ctr : Nat) (_h32 : key.length = 32) (h24 : nonce.length = 24) :
    xchachaEncrypt key r plaintext nonce aad ctr =
        xchachaEncryptSpec key r plaintext nonce aad ctr ∧
      xchachaDecrypt key r text nonce aad ctr =
        xchachaDecryptSpec key r text nonce aad ctr := by
  have h1 : rsSlice nonce 16 24 = some ((nonce.drop 16).take 8) := by
    simp [rsSlice, h24]
  have h2 : rsSlice nonce 0 16 = some (nonce.take 16) := by
    simp [rsSlice, h24]
  constructor <;>
  · simp only [xchachaEncrypt, xchachaDecrypt, xchachaKeyFn, h1, h2,
      Option.bind_some]
    cases hh : hchacha key (nonce.take 16) r <;>
      simp [hh, xchachaEncryptSpec, xchachaDecryptSpec]

/-- Witness for C7 at a concrete key, nonce, AAD, counter, and data. -/
theorem xchacha_delegates_witness :
    xchachaEncrypt (List.replicate 32 0) 20 [1] (List.replicate 24 0) [2] 1 =
        xchachaEncryptSpec (List.replicate 32 0) 20 [1] (List.replicate 24 0)
          [2] 1 ∧
      xchachaDecrypt (List.replicate 32 0) 20 (List.replicate 17 3)
          (List.replicate 24 0) [2] 1 =
        xchachaDecryptSpec (List.replicate 32 0) 20 (List.replicate 17 3)
          (List.replicate 24 0) [2] 1 :=
  xchacha_delegates (List.replicate 32 0) (List.replicate 24 0) [1]
    (List.replicate 17 3) [2] 20 1 (by decide) (by decide)

theorem serializeSt_take16 (p q : St) :
    (serializeSt p ++ serializeSt q).take 16 =
      toLE 4 p.x0 ++ toLE 4 p.x1 ++ toLE 4 p.x2 ++ toLE 4 p.x3 := by
  simp [serializeSt, List.take_append_eq_append_take, toLE_length,
    List.take_of_length_le]

theorem serializeSt_drop48_take16 (p q : St) :
    ((serializeSt p ++ serializeSt q).drop 48).take 16 =
      toLE 4 p.x12 ++ toLE 4 p.x13 ++ toLE 4 p.x14 ++ toLE 4 p.x15 := by
  simp [serializeSt, List.drop_append_eq_append_drop, toLE_length,
    List.drop_eq_nil_of_le, List.take_append_eq_append_take,
    List.take_of_length_le]

/-- C8: for every 32-byte key, 16-byte nonce, and round count, `hchacha`
returns exactly the serialization of row 0 of the permuted state (built
from the four ASCII constants, the key words, and the four nonce words —
no counter word; permutation applied with add-back disabled) followed by
the serialization of row 3, and every output has exactly 32 bytes.  Being
a function of its arguments, the result is deterministic across calls. -/
theorem hchacha_rows (key nonce : List Nat) (r : Nat)
    (h32 : key.length = 32) (h16 : nonce.length = 16) :
    hchacha key nonce r =
        some (toLE 4 (permuteN (r / 2) (hchachaState key nonce)).x0 ++
          toLE 4 (permuteN (r / 2) (hchachaState key nonce)).x1 ++
          toLE 4 (permuteN (r / 2) (hchachaState key nonce)).x2 ++
          toLE 4 (permuteN (r / 2) (hchachaState key nonce)).x3 ++
          (toLE 4 (permuteN (r / 2) (hchachaState key nonce)).x12 ++
            toLE 4 (permuteN (r / 2) (hchachaState key nonce)).x13 ++
            toLE 4 (permuteN (r / 2) (hchachaState key nonce)).x14 ++
            toLE 4 (permuteN (r / 2) (hchachaState key nonce)).x15)) ∧
      ∀ out, hchacha key nonce r = some out → out.length = 32 := by
  have hmain : hchacha key nonce r =
      some (toLE 4 (permuteN (r / 2) (hchachaState key nonce)).x0 ++
        toLE 4 (permuteN (r / 2) (hchachaState key nonce)).x1 ++
        toLE 4 (permuteN (r / 2) (hchachaState key nonce)).x2 ++
        toLE 4 (permuteN (r / 2) (hchachaState key nonce)).x3 ++
        (toLE 4 (permuteN (r / 2) (hchachaState key nonce)).x12 ++
          toLE 4 (permuteN (r / 2) (hchachaState key nonce)).x13 ++
          toLE 4 (permuteN (r / 2) (hchachaState key nonce)).x14 ++
          toLE 4 (permuteN (r / 2) (hchachaState key nonce)).x15)) := by
    simp only [hchacha, rsSlice, rsSliceFrom, h32, h16]
    norm_num
    simp only [backendRounds, serializeSt_take16, serializeSt_drop48_take16,
      chachaBlock, if_pos, hchachaState]
    rfl
  refine ⟨hmain, ?_⟩
  intro out hout
  rw [hmain] at hout
  cases hout
  simp [List.length_append, toLE_length]

/-- Witness for C8 at a concrete key, nonce, and 20 rounds. -/
theorem hchacha_rows_witness :
    hchacha (List.replicate 32 1) (List.replicate 16 2) 20 =
        some (toLE 4 (permuteN (20 / 2)
            (hchachaState (List.replicate 32 1) (List.replicate 16 2))).x0 ++
          toLE 4 (permuteN (20 / 2)
            (hchachaState (List.replicate 32 1) (List.replicate 16 2))).x1 ++
          toLE 4 (permuteN (20 / 2)
            (hchachaState (List.replicate 32 1) (List.replicate 16 2))).x2 ++
          toLE 4 (permuteN (20 / 2)
            (hchachaState (List.replicate 32 1) (List.replicate 16 2))).x3 ++
          (toLE 4 (permuteN (20 / 2)
              (hchachaState (List.replicate 32 1) (List.replicate 16 2))).x12 ++
            toLE 4 (permuteN (20 / 2)
              (hchachaState (List.replicate 32 1) (List.replicate 16 2))).x13 ++
            toLE 4 (permuteN (20 / 2)
              (hchachaState (List.replicate 32 1) (List.replicate 16 2))).x14 ++
            toLE 4 (permuteN (20 / 2)
              (hchachaState (List.replicate 32 1) (List.replicate 16 2))).x15)) ∧
      ∀ out, hchacha (List.replicate 32 1) (List.replicate 16 2) 20 =
          some out →
        out.length = 32 :=
  hchacha_rows (List.replicate 32 1) (List.replicate 16 2) 20 (by decide)
    (by decide)

theorem toLE_leNum : ∀ (l : List Nat) (n : Nat), l.length = n →
    (∀ a ∈ l, a < 256) → toLE n (leNum l) = l := by
  intro l
  induction l with
  | nil =>
    intro n hn _
    rw [← hn]
    rfl
  | cons a t ih =>
    intro n hn hb
    obtain rfl : n = t.length + 1 := by simpa using hn.symm
    have hle : leNum (a :: t) = a + 256 * leNum t := by
      simp [leNum, List.foldr]
    rw [hle]
    show (a + 256 * leNum t) % 256 :: toLE t.length ((a + 256 * leNum t) / 256)
        = a :: t
    rw [Nat.add_mul_mod_self_left, Nat.mod_eq_of_lt (hb a (by simp)),
      Nat.add_mul_div_left _ _ (by norm_num : (0:Nat) < 256),
      Nat.div_eq_of_lt (hb a (by simp))]
    rw [Nat.zero_add]
    rw [ih t.length rfl (fun x hx => hb x (by simp [hx]))]

/-- C10: `Block::load` then `Block::store` returns every 16-byte input
unchanged, and XOR-ing any block twice with the same block stores the same
16 bytes as the original. -/
theorem block_load_store_xor :
    (∀ b : List Nat, b.length = 16 → (∀ a ∈ b, a < 256) →
      (Block.load b).store = b) ∧
    ∀ x y : Block, ((x.xor y).xor y).store = x.store := by
  constructor
  · intro b hlen hb
    show toLE 16 (leNum (b.take 16)) = b
    rw [List.take_of_length_le (by omega)]
    exact toLE_leNum b 16 hlen hb
  · intro x y
    simp [Block.store, Block.xor, Nat.xor_cancel_right]

/-- Witness for C10 at a concrete 16-byte load and concrete blocks. -/
theorem block_load_store_xor_witness :
    (Block.load (List.range 16)).store = List.range 16 ∧
      ((Block.xor ⟨5⟩ ⟨9⟩).xor ⟨9⟩).store = Block.store ⟨5⟩ :=
  ⟨block_load_store_xor.1 (List.range 16) (by decide) (by decide),
    block_load_store_xor.2 ⟨5⟩ ⟨9⟩⟩
